import Mathlib

/-!
Shallow embedding of the tgpl_xkcd repository (Go sources `xkcd_data.go`
given as src/unnamed/part_000 and `xkcd_ops.go`), together with proofs
settling the claims about its specification.

Conventions of the embedding:
* Go byte slices are `List Nat` with entries below 256.
* Go `int` values are `Nat` (all values that reach the encoders in this
  program are non negative); the `uint16` truncation of the source is an
  explicit `% 65536`.
* Go maps are association lists (`List (key × value)`), written to and read
  with `alSet` / `alGetD`; Go map iteration order is unspecified, the
  association list fixes insertion order (no settled claim depends on the
  order in which distinct keys are iterated).
* Operations that can panic in Go (out of range indexing, nil pointer
  dereference) return `Option`, with `none` for the panic.
-/

namespace Xkcd

/-! ### Association lists modelling Go maps -/

/-- Lookup in an association list with a default, modelling `m[k]` on a Go
map (which yields the zero value for a missing key). -/
def alGetD {α β : Type} [DecidableEq α] : List (α × β) → α → β → β
  | [], _, d => d
  | (k', v') :: rest, k, d => if k' = k then v' else alGetD rest k d

/-- Update of an association list, modelling `m[k] = v` on a Go map:
replaces the entry for `k` if present, otherwise adds one. -/
def alSet {α β : Type} [DecidableEq α] : List (α × β) → α → β → List (α × β)
  | [], k, v => [(k, v)]
  | (k', v') :: rest, k, v =>
    if k' = k then (k, v) :: rest else (k', v') :: alSet rest k v

/-! ### Byte encodings (`Itob`, `Btoi`, `Istobs`, `Bstois`) -/

/-- `Itob` encodes a single int as a 2 byte big endian slice:
`binary.BigEndian.PutUint16(b, uint16(i))`; the Go conversion `uint16(i)`
truncates to `i % 65536`. -/
def Itob (i : Nat) : List Nat := [i % 65536 / 256, i % 256]

/-- `Btoi` reads a big endian `uint16` from the first two bytes
(`binary.BigEndian.Uint16`); on fewer than two bytes the source panics
(index out of range), modelled as `none`. -/
def Btoi : List Nat → Option Nat
  | b0 :: b1 :: _ => some (b0 * 256 + b1)
  | _ => none

/-- `Istobs` encodes an int slice by concatenating the 2 byte big endian
encoding of each element, in order. -/
def Istobs : List Nat → List Nat
  | [] => []
  | v :: rest => Itob v ++ Istobs rest

/-- `Bstois` decodes a byte slice two bytes at a time
(`for i := 0; i < len(bs); i += 2`, reading a `uint16` at `bs[i:]`);
a trailing odd byte makes `binary.BigEndian.Uint16` panic on a one byte
slice, modelled as `none`. -/
def Bstois : List Nat → Option (List Nat)
  | [] => some []
  | [_] => none
  | b0 :: b1 :: rest => (Bstois rest).map (fun is => (b0 * 256 + b1) :: is)

/-! ### The query engine (`xkcd_ops.go`) -/

/-- The `Data` struct of `xkcd_ops.go`: one query term together with its
postings list and the length of that list. -/
structure Data where
  Key : String
  Value : List Nat
  Len : Nat
  deriving DecidableEq

/-- Inner loop of `intersection`: scan `s2` in order; per iteration the
source evaluates `s1[len(s1)-1]`, which panics when `s1` is empty
(modelled as `none`); it breaks when the current value exceeds that last
element, and otherwise appends the value to the result when the
`checkMap` built from `s1` contains it (list membership). -/
def intersectionGo (s1 : List Nat) : List Nat → List Nat → Option (List Nat)
  | acc, [] => some acc
  | acc, v :: rest =>
    match s1.getLast? with
    | none => none
    | some m =>
      if m < v then some acc
      else if v ∈ s1 then intersectionGo s1 (acc ++ [v]) rest
      else intersectionGo s1 acc rest

/-- `intersection` returns the intersection of two integer slices, scanning
the second against a membership set built from the first. -/
def intersection (s1 s2 : List Nat) : Option (List Nat) :=
  intersectionGo s1 [] s2

/-- `getRefs` looks up the postings bytes for each query term in bucket
`main` and decodes them (`Bstois`); a missing term reads `nil` bytes and
decodes to the empty list. The terms are assumed already trimmed (the
source applies `strings.TrimSpace` to each token). `post` is the
contents of the `main` bucket (absent key = empty bytes). -/
def getRefs (post : String → List Nat) : List String → List (String × List Nat) →
    Option (List (String × List Nat))
  | [], acc => some acc
  | v :: rest, acc =>
    match Bstois (post v) with
    | none => none
    | some r => getRefs post rest (alSet acc v r)

/-- Insert one `Data` entry into a list sorted by ascending `Len`
(modelling `sort.Slice` with `ss[i].Len < ss[j].Len`; ties keep first
come order, a choice the source leaves to the sorting algorithm and on
which no settled claim depends). -/
def sortInsert (d : Data) : List Data → List Data
  | [] => [d]
  | e :: rest => if d.Len < e.Len then d :: e :: rest else e :: sortInsert d rest

/-- `sortMap` converts the term to postings map into `Data` records and
sorts them by ascending list length. -/
def sortMap (m : List (String × List Nat)) : List Data :=
  (m.map (fun kv => Data.mk kv.1 kv.2 kv.2.length)).foldl
    (fun acc d => sortInsert d acc) []

/-- Folding the pairwise intersection over the remaining sorted lists:
`common = intersection(common, v.Value)` for each further entry. -/
def intersectFold : List Nat → List Data → Option (List Nat)
  | c, [] => some c
  | c, d :: rest =>
    match intersection c d.Value with
    | none => none
    | some c' => intersectFold c' rest

/-- Result of a search: the list of document IDs handed to `returnData`,
or a panic. -/
inductive SearchRes
  | ids (l : List Nat)
  | panicked
  deriving DecidableEq

/-- `searchIndex` over the postings bucket, for an already tokenized query:
single entry maps skip the intersection; otherwise the two smallest
lists are intersected first (`sorted[0]`, `sorted[1]`, panicking when
fewer than two entries exist) and the rest folded in. -/
def searchIndex (post : String → List Nat) (query : List String) : SearchRes :=
  match getRefs post query [] with
  | none => .panicked
  | some resultMap =>
    if resultMap.length = 1 then
      match resultMap with
      | [(_, v)] => .ids v
      | _ => .panicked
    else
      match sortMap resultMap with
      | s1 :: s2 :: rest =>
        match intersection s1.Value s2.Value with
        | none => .panicked
        | some common =>
          match intersectFold common rest with
          | none => .panicked
          | some c => .ids c
      | _ => .panicked

/-! ### The index builder (`xkcd_data.go`) -/

/-- Outcome of fetching one comic by ID, covering the branches of the loop
body of `GetInfo`:
* `found d` — HTTP 200 whose JSON tokenizes (through `formatEntry` and
  `bufio.ScanWords`) to the term list `d`;
* `notFound` — HTTP 404 status: the loop breaks (the frontier);
* `badStatus` — any other HTTP status: `GetInfo` returns an error;
* `errConn` — `http.Get` returns a non nil error, so `resp` is nil and
  `resp.Body.Close()` dereferences a nil pointer (panic);
* `badJson` — HTTP 200 whose body does not unmarshal into the metadata
  struct (or unmarshals to a nil pointer): `mapData` then writes through
  the nil `dataMapFields` pointer (`dataMapFields.Link = URL`), a panic. -/
inductive Fetch
  | found (d : List String)
  | notFound
  | badStatus
  | errConn
  | badJson

/-- The external source: `fetch i` is the response for comic ID `i`, and
`bound` is a bound past which every ID is not found (hypothesis `WF`). -/
structure World where
  fetch : Nat → Fetch
  bound : Nat

/-- Well formed world: beyond `bound` every fetch reports not found. -/
def WF (w : World) : Prop := ∀ i, w.bound ≤ i → w.fetch i = Fetch.notFound

/-- The in memory state of one run: the package level `IndexMap` (inverted
index) and `DataMap` (ID to document record); both start empty in each
process execution. -/
structure MemSt where
  IndexMap : List (String × List Nat)
  DataMap : List (Nat × List String)

/-- `appendIfUnique` appends the DocID to the slice unless already present
(the source materializes the slice into a `map[int]bool` and tests it,
which is exactly list membership). -/
def appendIfUnique (s : List Nat) (i : Nat) : List Nat :=
  if i ∈ s then s else s ++ [i]

/-- `mapTerms` folds each scanned term of a response into `IndexMap`:
`IndexMap[t] = appendIfUnique(IndexMap[t], Index)`. -/
def mapTerms (m : List (String × List Nat)) (i : Nat) : List String →
    List (String × List Nat)
  | [] => m
  | t :: ts => mapTerms (alSet m t (appendIfUnique (alGetD m t []) i)) i ts

/-- `mapData` records the document under the current index:
`DataMap[i] = *dataMapFields`. -/
def mapData (dm : List (Nat × List String)) (i : Nat) (d : List String) :
    List (Nat × List String) :=
  alSet dm i d

/-- One successful loop iteration: `mapTerms(formatEntry(respInfo))` then
`mapData(respInfo, Index)` (the audit log write to `comic_log.txt` has no
effect on the index state). -/
def processDoc (st : MemSt) (i : Nat) (d : List String) : MemSt :=
  ⟨mapTerms st.IndexMap i d, mapData st.DataMap i d⟩

/-- How the download loop of `GetInfo` ended. -/
inductive LoopRes
  | brk (st : MemSt) (fi : Nat)
  | errored (st : MemSt)
  | panicked
  | fuelOut

/-- The download loop of `GetInfo`: `for i := Index; i > 0; i++`, with the
special case skip at 404 (checked before any fetch), break on HTTP 404
past the most recent comic, error return on other bad statuses, and the
two nil pointer panics (`errConn`, `badJson`). The loop variable `i` and
the package variable `Index` stay equal throughout, so a single counter
is carried. `fuel` only forces termination; `fuelFor` below always
suffices for a well formed world. -/
def getInfoLoop (w : World) : Nat → Nat → MemSt → LoopRes
  | 0, _, _ => .fuelOut
  | fuel + 1, i, st =>
    if i = 0 then .brk st i
    else if i = 404 then getInfoLoop w fuel (i + 1) st
    else
      match w.fetch i with
      | .errConn => .panicked
      | .badStatus => .errored st
      | .notFound => .brk st i
      | .badJson => .panicked
      | .found d => getInfoLoop w fuel (i + 1) (processDoc st i d)

/-- State of the cursor database `log.db`:
* `absent` — the file does not exist (first ever execution);
* `emptyFile` — the file exists but the `log` bucket was never committed
  (a failed first `logIndexVar`); reading it dereferences a nil bucket;
* `value bs` — bucket `log` maps key `index` to the bytes `bs`. -/
inductive LogDb
  | absent
  | emptyFile
  | value (bs : List Nat)
  deriving DecidableEq

/-- The persistent state: bucket `main` (term to postings bytes, absent key
reads as empty bytes), bucket `data` (2 byte key to stored record), and
`log.db`. -/
structure Store where
  main : String → List Nat
  data : List Nat → Option (List String)
  log : LogDb

/-- The empty persistent state before the first execution. -/
def Store.init : Store := ⟨fun _ => [], fun _ => none, LogDb.absent⟩

/-- `GetIndex`: when `log.db` is missing the index starts at 1; otherwise
`viewLogDb` reads bucket `log` key `index` and decodes it with `Btoi`.
A `log.db` without the bucket makes `b.Get` dereference a nil bucket
and a short value makes `Btoi` index out of range; both panics are
`none`. -/
def GetIndex (s : Store) : Option Nat :=
  match s.log with
  | .absent => some 1
  | .emptyFile => none
  | .value bs => Btoi bs

/-- The body of the `storeIndexMap` update transaction: for every term of
the in memory map, `Put(k, append(Get(k), Istobs(v)...))` — the new IDs
are appended to the persisted bytes unconditionally. -/
def storeIndexMap (m : List (String × List Nat)) (main : String → List Nat) :
    String → List Nat :=
  m.foldl (fun f kv => fun t => if t = kv.1 then f kv.1 ++ Istobs kv.2 else f t) main

/-- The body of the `storeMapData` update transaction: for every entry,
`Put(Itob(k), convToProto(v))`; the protobuf encoding is abstracted by
storing the record itself (its round trip is out of scope). -/
def storeMapData (m : List (Nat × List String))
    (data : List Nat → Option (List String)) : List Nat → Option (List String) :=
  m.foldl (fun f kv => fun b => if b = Itob kv.1 then some kv.2 else f b) data

/-- `logIndexVar` commits `Put([]byte("index"), Itob(i))` in `log.db`. -/
def logIndexVar (i : Nat) : LogDb := LogDb.value (Itob i)

/-- Overall outcome of one execution of `updateIndex`. -/
inductive RunOutcome
  | success
  | failed
  | panicked
  deriving DecidableEq

/-- The flush tail of `GetInfo`: three separate write transactions, run in
order — `storeIndexMap` on bucket `main`, `storeMapData` on bucket
`data` (both in `xkcd_index.db`), then `logIndexVar` on `log.db`. The
flags `f1 f2 f3` inject a failure of the respective transaction (each
bolt transaction is itself atomic, so a failed one leaves its table
unchanged); `GetInfo` returns on the first failure, skipping the later
transactions. A failed `logIndexVar` on a previously absent `log.db`
still creates the file without the bucket (`LogDb.emptyFile`). -/
def flush (f1 f2 f3 : Bool) (st : MemSt) (fi : Nat) (s : Store) :
    Store × RunOutcome :=
  if f1 then (s, .failed)
  else
    let s1 : Store := ⟨storeIndexMap st.IndexMap s.main, s.data, s.log⟩
    if f2 then (s1, .failed)
    else
      let s2 : Store := ⟨s1.main, storeMapData st.DataMap s1.data, s1.log⟩
      if f3 then
        (⟨s2.main, s2.data, match s2.log with | .absent => .emptyFile | l => l⟩, .failed)
      else (⟨s2.main, s2.data, logIndexVar fi⟩, .success)

/-- Fuel that always lets the loop of a well formed world terminate on its
own: past `bound` every fetch is not found, and the only ID that is
passed without fetching is 404. -/
def fuelFor (w : World) : Nat := w.bound + 406

/-- Dispatch on how the download loop ended: a normal break flushes, an
error return or a panic leaves the store untouched. -/
def runGetInfo (f1 f2 f3 : Bool) (s : Store) : LoopRes → Store × RunOutcome
  | .brk st fi => flush f1 f2 f3 st fi s
  | .errored _ => (s, .failed)
  | .panicked => (s, .panicked)
  | .fuelOut => (s, .failed)

/-- `updateIndex` (the `-u` operation): one full execution — `GetIndex`
reads the cursor, the download loop runs from it with fresh in memory
maps, and on a normal break the three store transactions run. -/
def updateIndex (w : World) (f1 f2 f3 : Bool) (s : Store) : Store × RunOutcome :=
  match GetIndex s with
  | none => (s, .panicked)
  | some c => runGetInfo f1 f2 f3 s (getInfoLoop w (fuelFor w) c ⟨[], []⟩)

/-- A sequence of executions against the same store, starting from nothing;
each list entry gives the failure injection flags of that run. -/
def runSeq (w : World) (fs : List (Bool × Bool × Bool)) : Store :=
  fs.foldl (fun s f => (updateIndex w f.1 f.2.1 f.2.2 s).1) Store.init

/-! ### Concrete worlds and stores used in counterexamples and witnesses -/

/-- Postings bucket holding only the term `the` with documents 1 and 2. -/
def post0 : String → List Nat := fun t => if t = "the" then Istobs [1, 2] else []

/-- Postings bucket holding only the term `a` with document 3. -/
def main0 : String → List Nat := fun t => if t = "a" then Istobs [3] else []

/-- World with a single comic (ID 1) whose text is the term `a`. -/
def w1 : World := ⟨fun i => if i = 1 then Fetch.found ["a"] else Fetch.notFound, 2⟩

/-- World with two comics (IDs 1 and 2), each containing the term `a`. -/
def wDup : World := ⟨fun i => if i ≤ 2 then Fetch.found ["a"] else Fetch.notFound, 3⟩

/-- World whose frontier is right after the reserved ID: comics exist up to
ID 403 and ID 405 is not found (404 itself is never fetched). -/
def w404 : World := ⟨fun i => if i ≤ 403 then Fetch.found ["a"] else Fetch.notFound, 404⟩

/-- Store with a persisted cursor of 403 and otherwise empty tables. -/
def s403 : Store := ⟨fun _ => [], fun _ => none, LogDb.value (Itob 403)⟩

/-- World whose first fetch fails with a transport error. -/
def wErr : World := ⟨fun i => if i = 1 then Fetch.errConn else Fetch.notFound, 2⟩

/-- World whose first fetch returns an undecodable payload. -/
def wBad : World := ⟨fun i => if i = 1 then Fetch.badJson else Fetch.notFound, 2⟩

/-! ### Invariant predicates -/

/-- The keys of an association list are pairwise distinct. -/
def keysNodup {α β : Type} (m : List (α × β)) : Prop := (m.map Prod.fst).Nodup

/-- Invariant of the in memory inverted index while the download loop of a
run that started at cursor `c` is at index `i`: distinct keys, every
postings slice strictly ascending, and every recorded DocID in `[c, i)`,
below the world bound `bnd` and different from the reserved ID. -/
def IndexMapOK (c i bnd : Nat) (m : List (String × List Nat)) : Prop :=
  keysNodup m ∧ ∀ p ∈ m, p.2.Sorted (· < ·) ∧
    ∀ x ∈ p.2, c ≤ x ∧ x < i ∧ x < bnd ∧ x ≠ 404

/-- Same bounds for the keys of the in memory document map. -/
def DataMapOK (c i bnd : Nat) (dm : List (Nat × List String)) : Prop :=
  ∀ p ∈ dm, c ≤ p.1 ∧ p.1 < i ∧ p.1 < bnd ∧ p.1 ≠ 404

/-- Store invariant maintained by fully successful runs: the cursor is
readable as some `c` with `1 ≤ c ≤ 65535`, and every persisted postings
value decodes to a strictly ascending list of IDs below the cursor
(hence, in particular, duplicate free). -/
def Inv5 (s : Store) : Prop :=
  ∃ c, GetIndex s = some c ∧ 1 ≤ c ∧ c ≤ 65535 ∧
    ∀ t, ∃ l, Bstois (s.main t) = some l ∧ l.Sorted (· < ·) ∧
      ∀ x ∈ l, 1 ≤ x ∧ x < c ∧ x < 65536

/-- Store invariant maintained by arbitrary runs (any flush failures): the
cursor database is in one of its three reachable shapes, every persisted
postings value decodes to IDs that are below 65536 and never the
reserved ID, and the document bucket has no entry under the reserved
key. -/
def Inv8 (s : Store) : Prop :=
  (s.log = LogDb.absent ∨ s.log = LogDb.emptyFile ∨
    ∃ n, 1 ≤ n ∧ n ≤ 65535 ∧ s.log = LogDb.value (Itob n)) ∧
  (∀ t, ∃ l, Bstois (s.main t) = some l ∧ ∀ x ∈ l, x ≠ 404 ∧ x < 65536) ∧
  s.data (Itob 404) = none

/-! ### Facts about the byte encodings -/

theorem Btoi_Itob (i : Nat) : Btoi (Itob i) = some (i % 65536) := by
  simp only [Itob, Btoi, Option.some.injEq]
  omega

theorem Bstois_Istobs (s : List Nat) (h : ∀ v ∈ s, v < 65536) :
    Bstois (Istobs s) = some s := by
  induction s with
  | nil => rfl
  | cons v rest ih =>
    have hv : v < 65536 := h v (List.mem_cons_self v rest)
    have hrest := ih (fun x hx => h x (List.mem_cons_of_mem v hx))
    have hstep : Bstois (Istobs (v :: rest)) =
        (Bstois (Istobs rest)).map
          (fun is => (v % 65536 / 256 * 256 + v % 256) :: is) := rfl
    rw [hstep, hrest]
    simp only [Option.map_some', Option.some.injEq, List.cons.injEq, and_true]
    omega

/-- Appending a decodable (hence even length) byte string on the left
splits the decoding. -/
theorem Bstois_append {a : List Nat} {la : List Nat} (h : Bstois a = some la)
    (b : List Nat) :
    Bstois (a ++ b) = (Bstois b).map (fun lb => la ++ lb) := by
  induction a using Bstois.induct generalizing la with
  | case1 =>
    simp only [Bstois, Option.some.injEq] at h
    subst h
    simp only [List.nil_append]
    cases Bstois b <;> rfl
  | case2 x => simp [Bstois] at h
  | case3 b0 b1 rest ih =>
    simp only [Bstois] at h
    cases hr : Bstois rest with
    | none => rw [hr] at h; simp at h
    | some lr =>
      rw [hr] at h
      simp only [Option.map_some', Option.some.injEq] at h
      subst h
      have hstep : Bstois ((b0 :: b1 :: rest) ++ b) =
          (Bstois (rest ++ b)).map (fun is => (b0 * 256 + b1) :: is) := rfl
      rw [hstep, ih hr]
      cases Bstois b <;> rfl

theorem Itob_inj {a b : Nat} (ha : a < 65536) (hb : b < 65536)
    (h : Itob a = Itob b) : a = b := by
  simp only [Itob, List.cons.injEq, and_true] at h
  omega

/-! ### Sorted-list helper lemmas -/

theorem getLast?_isSome_of_ne_nil {α : Type} (l : List α) (h : l ≠ []) :
    ∃ m, l.getLast? = some m := by
  cases l with
  | nil => exact absurd rfl h
  | cons a t =>
    induction t generalizing a with
    | nil => exact ⟨a, rfl⟩
    | cons b t ih =>
      obtain ⟨m, hm⟩ := ih b (by simp)
      exact ⟨m, by rw [List.getLast?_cons_cons]; exact hm⟩

theorem sorted_le_getLast {A : List Nat} {m : Nat} (hA : A.Sorted (· < ·))
    (hm : A.getLast? = some m) : ∀ x ∈ A, x ≤ m := by
  induction A with
  | nil => intro x hx; simp at hx
  | cons a rest ih =>
    intro x hx
    cases rest with
    | nil =>
      simp only [List.getLast?_singleton, Option.some.injEq] at hm
      rcases List.mem_singleton.mp hx with h
      omega
    | cons b t =>
      rw [List.getLast?_cons_cons] at hm
      have hsort := (List.sorted_cons.mp hA)
      have hrec := ih hsort.2 hm
      rcases List.mem_cons.mp hx with h | h
      · have hb : b ≤ m := hrec b (List.mem_cons_self b t)
        have hab : a < b := hsort.1 b (List.mem_cons_self b t)
        omega
      · exact hrec x h

/-! ### Correctness of the intersection scan -/

theorem intersectionGo_eq {A : List Nat} (hA : A.Sorted (· < ·)) (hne : A ≠ []) :
    ∀ (B acc : List Nat), B.Sorted (· < ·) →
      intersectionGo A acc B = some (acc ++ B.filter (fun v => decide (v ∈ A))) := by
  intro B
  induction B with
  | nil => intro acc _; simp [intersectionGo]
  | cons v rest ih =>
    intro acc hB
    obtain ⟨m, hm⟩ := getLast?_isSome_of_ne_nil A hne
    have hmax := sorted_le_getLast hA hm
    have hBrest : rest.Sorted (· < ·) := (List.sorted_cons.mp hB).2
    have hvlt : ∀ w ∈ rest, v < w := (List.sorted_cons.mp hB).1
    simp only [intersectionGo, hm]
    by_cases h1 : m < v
    · rw [if_pos h1]
      have hv : v ∉ A := fun hv => absurd (hmax v hv) (by omega)
      have hrest : rest.filter (fun x => decide (x ∈ A)) = [] := by
        rw [List.filter_eq_nil_iff]
        intro x hx
        simp only [decide_eq_true_eq]
        intro hxA
        have := hmax x hxA
        have := hvlt x hx
        omega
      simp [List.filter_cons, hv, hrest]
    · rw [if_neg h1]
      by_cases h2 : v ∈ A
      · rw [if_pos h2, ih (acc ++ [v]) hBrest]
        simp [List.filter_cons, h2, List.append_assoc]
      · rw [if_neg h2, ih acc hBrest]
        simp [List.filter_cons, h2]

theorem intersection_eq_filter {A : List Nat} (hA : A.Sorted (· < ·)) (hne : A ≠ [])
    {B : List Nat} (hB : B.Sorted (· < ·)) :
    intersection A B = some (B.filter (fun v => decide (v ∈ A))) := by
  have := intersectionGo_eq hA hne B [] hB
  simpa [intersection] using this

/-! ### Claim C9: the postings byte decoding inverts the encoding -/

/-- C9: for every finite sequence of document IDs, each at most 65535,
decoding the concatenated 2 byte fixed width encoding of the sequence
yields the original sequence in order: `Bstois (Istobs s) = s`. -/
theorem C9_decode_inverts_encode (s : List Nat) (h : ∀ v ∈ s, v ≤ 65535) :
    Bstois (Istobs s) = some s :=
  Bstois_Istobs s (fun v hv => Nat.lt_succ_of_le (h v hv))

theorem C9_decode_inverts_encode_witness :
    (∀ v ∈ [1, 404, 65535], v ≤ 65535) ∧
      Bstois (Istobs [1, 404, 65535]) = some [1, 404, 65535] :=
  ⟨by decide, C9_decode_inverts_encode [1, 404, 65535] (by decide)⟩

/-! ### Claim C10: the single-ID key encoding silently wraps -/

/-- C10: `Btoi (Itob i) = i % 65536` for every non negative integer, so the
round trip is exact exactly when `i ≤ 65535`; a document ID of 65536 or
more is stored by `storeMapData` under a truncated key without any
error (here ID 65940 lands on the key of ID 404). -/
theorem C10_key_encoding_wraps (i : Nat) :
    Btoi (Itob i) = some (i % 65536) ∧
    (Btoi (Itob i) = some i ↔ i ≤ 65535) ∧
    storeMapData [(65940, ["x"])] (fun _ => none) (Itob 404) = some ["x"] := by
  refine ⟨Btoi_Itob i, ?_, by decide⟩
  rw [Btoi_Itob]
  constructor
  · intro h
    have := Option.some.inj h
    omega
  · intro h
    have : i % 65536 = i := Nat.mod_eq_of_lt (by omega)
    rw [this]

/-! ### Claim C3: intersection correctness -/

/-- C3 counterexample: the claim quantifies over all ascending duplicate
free sequences including empty ones, but `intersection [] [1]` panics
(index out of range on `s1[len(s1)-1]`) instead of returning the empty
set intersection. -/
theorem C3_counterexample :
    intersection [] [1] = none ∧
    ([] : List Nat).Sorted (· < ·) ∧ ([1] : List Nat).Sorted (· < ·) ∧
    (∀ x : Nat, ¬(x ∈ ([] : List Nat) ∧ x ∈ [1])) := by
  refine ⟨rfl, by decide, by decide, by simp⟩

/-- C3 amended: for ascending duplicate free sequences `A` and `B` with `A`
nonempty, `intersection A B` returns exactly the ascending set
intersection (the early break on values exceeding the maximum of `A`
loses nothing), and when `B` is also nonempty the two scan orders agree
as sets. -/
theorem C3_intersection_amended (A B : List Nat) (hA : A.Sorted (· < ·))
    (hB : B.Sorted (· < ·)) (hne : A ≠ []) :
    intersection A B = some (B.filter (fun v => decide (v ∈ A))) ∧
    (B.filter (fun v => decide (v ∈ A))).Sorted (· < ·) ∧
    (∀ x, x ∈ B.filter (fun v => decide (v ∈ A)) ↔ x ∈ A ∧ x ∈ B) ∧
    (B ≠ [] → intersection B A = some (A.filter (fun v => decide (v ∈ B))) ∧
      ∀ x, x ∈ A.filter (fun v => decide (v ∈ B)) ↔
        x ∈ B.filter (fun v => decide (v ∈ A))) := by
  have hmem : ∀ x, x ∈ B.filter (fun v => decide (v ∈ A)) ↔ x ∈ A ∧ x ∈ B := by
    intro x
    rw [List.mem_filter]
    simp only [decide_eq_true_eq]
    exact ⟨fun h => ⟨h.2, h.1⟩, fun h => ⟨h.2, h.1⟩⟩
  refine ⟨intersection_eq_filter hA hne hB, hB.filter _, hmem, fun hBne => ?_⟩
  have hmem' : ∀ x, x ∈ A.filter (fun v => decide (v ∈ B)) ↔ x ∈ B ∧ x ∈ A := by
    intro x
    rw [List.mem_filter]
    simp only [decide_eq_true_eq]
    exact ⟨fun h => ⟨h.2, h.1⟩, fun h => ⟨h.2, h.1⟩⟩
  refine ⟨intersection_eq_filter hB hBne hA, fun x => ?_⟩
  rw [hmem x, hmem' x, and_comm]

theorem C3_intersection_amended_witness :
    ([1, 3] : List Nat).Sorted (· < ·) ∧ ([2, 3, 4] : List Nat).Sorted (· < ·) ∧
    intersection [1, 3] [2, 3, 4] =
      some ([2, 3, 4].filter (fun v => decide (v ∈ ([1, 3] : List Nat)))) :=
  ⟨by decide, by decide,
    (C3_intersection_amended [1, 3] [2, 3, 4] (by decide) (by decide) (by decide)).1⟩

/-! ### Claim C2: unknown query terms -/

/-- C2: a sole absent query term does yield an immediate empty result, but
in a multi term query an absent term does not yield an empty final
result: its empty postings list becomes the reference slice of
`intersection`, whose per iteration read of `s1[len(s1)-1]` is an index
out of range panic, crashing the search. -/
theorem C2_unknown_term_crashes :
    Bstois (post0 "zzz") = some [] ∧
    searchIndex post0 ["zzz"] = SearchRes.ids [] ∧
    searchIndex post0 ["the"] = SearchRes.ids [1, 2] ∧
    searchIndex post0 ["zzz", "the"] = SearchRes.panicked := by
  refine ⟨rfl, rfl, rfl, rfl⟩

/-! ### Claim C4: the postings merge -/

theorem storeIndexMap_single (t : String) (v : List Nat) (main : String → List Nat) :
    storeIndexMap [(t, v)] main t = main t ++ Istobs v := by
  simp [storeIndexMap]

/-- C4 counterexample: merging an ID that is already persisted for the term
(here ID 3 for term `a`) duplicates it — `storeIndexMap` appends the
whole encoded slice to the stored bytes without reading out what is
already present, so the stored list decodes to `[3, 3]`, which is
neither duplicate free nor strictly ascending. -/
theorem C4_counterexample :
    Bstois (main0 "a") = some [3] ∧
    Bstois (storeIndexMap [("a", [3])] main0 "a") = some [3, 3] ∧
    ¬ ([3, 3] : List Nat).Nodup ∧ ¬ ([3, 3] : List Nat).Sorted (· < ·) := by
  refine ⟨rfl, rfl, by decide, by decide⟩

/-- C4 amended: the merge appends the entire encoded `newIDs` slice to the
existing persisted bytes unconditionally, so the stored list decodes to
the concatenation `old ++ newIDs`; the result is ascending and
duplicate free only under the additional assumption that every new ID
is strictly greater than every persisted one (as is the case when a
fully successful run advanced the cursor past all stored IDs). -/
theorem C4_merge_amended (t : String) (new : List Nat) (main : String → List Nat)
    (old : List Nat) (hold : Bstois (main t) = some old)
    (hnew : ∀ x ∈ new, x < 65536) :
    Bstois (storeIndexMap [(t, new)] main t) = some (old ++ new) ∧
    (old.Sorted (· < ·) → new.Sorted (· < ·) → (∀ x ∈ old, ∀ y ∈ new, x < y) →
      (old ++ new).Sorted (· < ·) ∧ (old ++ new).Nodup) := by
  have h2 : Bstois (main t ++ Istobs new) = some (old ++ new) := by
    rw [Bstois_append hold (Istobs new), Bstois_Istobs new hnew]
    rfl
  refine ⟨by rw [storeIndexMap_single, h2], fun hso hsn hlt => ?_⟩
  have hsorted : (old ++ new).Sorted (· < ·) :=
    List.pairwise_append.mpr ⟨hso, hsn, hlt⟩
  exact ⟨hsorted, hsorted.nodup⟩

theorem C4_merge_amended_witness :
    Bstois (storeIndexMap [("a", [4, 5])] main0 "a") = some [3, 4, 5] ∧
    ([3, 4, 5] : List Nat).Sorted (· < ·) ∧ ([3, 4, 5] : List Nat).Nodup := by
  have h := C4_merge_amended "a" [4, 5] main0 [3] (by rfl) (by decide)
  exact ⟨h.1, (h.2 (by decide) (by decide) (by decide)).1,
    (h.2 (by decide) (by decide) (by decide)).2⟩

/-! ### Claim C1: flush atomicity -/

/-- C1 counterexample: a failure of the second flush transaction
(`storeMapData`) leaves the run failed and the cursor unadvanced, but
the postings table has already been changed by the committed
`storeIndexMap` transaction — the three logical tables are not left
unchanged and partial state is visible. -/
theorem C1_counterexample :
    (updateIndex w1 false true false Store.init).2 = RunOutcome.failed ∧
    (updateIndex w1 false true false Store.init).1.main "a" = Istobs [1] ∧
    Store.init.main "a" = [] ∧ Istobs [1] ≠ [] ∧
    (updateIndex w1 false true false Store.init).1.data (Itob 1) = none ∧
    (updateIndex w1 false true false Store.init).1.log = Store.init.log := by
  refine ⟨rfl, rfl, rfl, by decide, rfl, rfl⟩

/-- C1 amended: the flush is three separate write transactions (postings
merge, document upserts, cursor write), each individually atomic, run
in that order and stopping at the first failure: the run succeeds only
when all three commit; a committed cursor value appears only on full
success (a failed first ever cursor write at most creates the empty
`log.db` file); and a table is changed only when every transaction
before it committed — but tables written before the failing one keep
their new contents, so whole flush atomicity does not hold. -/
theorem C1_flush_amended (f1 f2 f3 : Bool) (st : MemSt) (fi : Nat) (s : Store) :
    ((flush f1 f2 f3 st fi s).2 = RunOutcome.success ↔
      f1 = false ∧ f2 = false ∧ f3 = false) ∧
    ((flush f1 f2 f3 st fi s).2 = RunOutcome.success →
      (flush f1 f2 f3 st fi s).1.log = logIndexVar fi) ∧
    ((flush f1 f2 f3 st fi s).2 = RunOutcome.failed →
      (flush f1 f2 f3 st fi s).1.log = s.log ∨
        (s.log = LogDb.absent ∧ (flush f1 f2 f3 st fi s).1.log = LogDb.emptyFile)) ∧
    ((flush f1 f2 f3 st fi s).1.data ≠ s.data → f1 = false ∧ f2 = false) ∧
    ((flush f1 f2 f3 st fi s).1.main ≠ s.main → f1 = false) := by
  cases f1 <;> cases f2 <;> cases f3 <;>
    cases hlog : s.log <;>
      simp [flush, logIndexVar, hlog]

/-! ### Claim C7: transport and decoding errors -/

/-- C7: a transport error does not abort the run with a surfaced error —
`http.Get` returns a nil response together with the error, and the
source immediately calls `resp.Body.Close()`, a nil pointer panic; an
undecodable body likewise panics inside `mapData` (write through the
nil `dataMapFields` pointer). The store (including the cursor) is
untouched, but the failure is a crash, not a surfaced error. -/
theorem C7_error_paths_panic :
    updateIndex wErr false false false Store.init = (Store.init, RunOutcome.panicked) ∧
    updateIndex wBad false false false Store.init = (Store.init, RunOutcome.panicked) ∧
    RunOutcome.panicked ≠ RunOutcome.failed := by
  refine ⟨rfl, rfl, by decide⟩

/-! ### Claim C6: resume correctness, counterexample -/

/-- C6 counterexample: with a persisted cursor of 403 and the frontier
right after the reserved ID, the run processes exactly ID 403
(document key 403 is stored, 404 and 405 are not), yet the persisted
new cursor decodes to 405, not `lastProcessedID + 1 = 404`. -/
theorem C6_counterexample :
    GetIndex s403 = some 403 ∧
    (updateIndex w404 false false false s403).2 = RunOutcome.success ∧
    ((updateIndex w404 false false false s403).1.data (Itob 403)).isSome = true ∧
    (updateIndex w404 false false false s403).1.data (Itob 404) = none ∧
    (updateIndex w404 false false false s403).1.data (Itob 405) = none ∧
    GetIndex (updateIndex w404 false false false s403).1 = some 405 ∧
    403 + 1 ≠ 405 := by
  refine ⟨rfl, rfl, rfl, rfl, rfl, rfl, by decide⟩

/-! ### Association-list lemmas -/

theorem alSet_self {α β : Type} [DecidableEq α] (m : List (α × β)) (k : α) (v : β) :
    (k, v) ∈ alSet m k v := by
  induction m with
  | nil => simp [alSet]
  | cons p rest ih =>
    by_cases h : p.1 = k
    · simp [alSet, h]
    · simp only [alSet]
      rw [if_neg h]
      exact List.mem_cons_of_mem p ih

theorem alSet_mem {α β : Type} [DecidableEq α] {m : List (α × β)} {k : α} {v : β}
    {p : α × β} (hp : p ∈ alSet m k v) : p = (k, v) ∨ p ∈ m := by
  induction m with
  | nil => simp [alSet] at hp; exact Or.inl hp
  | cons q rest ih =>
    simp only [alSet] at hp
    by_cases h : q.1 = k
    · rw [if_pos h] at hp
      rcases List.mem_cons.mp hp with h' | h'
      · exact Or.inl h'
      · exact Or.inr (List.mem_cons_of_mem q h')
    · rw [if_neg h] at hp
      rcases List.mem_cons.mp hp with h' | h'
      · exact Or.inr (h' ▸ List.mem_cons_self q rest)
      · rcases ih h' with h'' | h''
        · exact Or.inl h''
        · exact Or.inr (List.mem_cons_of_mem q h'')

theorem alSet_mem_of_mem {α β : Type} [DecidableEq α] {m : List (α × β)} {p : α × β}
    (hp : p ∈ m) {k : α} (hne : p.1 ≠ k) (v : β) : p ∈ alSet m k v := by
  induction m with
  | nil => simp at hp
  | cons q rest ih =>
    obtain ⟨qk, qv⟩ := q
    simp only [alSet]
    by_cases h : qk = k
    · rw [if_pos h]
      rcases List.mem_cons.mp hp with h' | h'
      · subst h'
        exact absurd h hne
      · exact List.mem_cons_of_mem _ h'
    · rw [if_neg h]
      rcases List.mem_cons.mp hp with h' | h'
      · subst h'
        exact List.mem_cons_self _ _
      · exact List.mem_cons_of_mem _ (ih h')

theorem alSet_keys_sub {α β : Type} [DecidableEq α] {m : List (α × β)} {k : α} {v : β}
    {x : α} (hx : x ∈ (alSet m k v).map Prod.fst) :
    x = k ∨ x ∈ m.map Prod.fst := by
  obtain ⟨p, hp, hfst⟩ := List.mem_map.mp hx
  rcases alSet_mem hp with h | h
  · subst h; exact Or.inl hfst.symm
  · exact Or.inr (List.mem_map.mpr ⟨p, h, hfst⟩)

theorem keysNodup_alSet {α β : Type} [DecidableEq α] {m : List (α × β)}
    (hnd : keysNodup m) (k : α) (v : β) : keysNodup (alSet m k v) := by
  induction m with
  | nil => simp [keysNodup, alSet]
  | cons q rest ih =>
    unfold keysNodup at hnd ⊢
    simp only [List.map_cons, List.nodup_cons] at hnd
    by_cases h : q.1 = k
    · simp only [alSet]
      rw [if_pos h]
      simp only [List.map_cons, List.nodup_cons]
      exact ⟨h ▸ hnd.1, hnd.2⟩
    · simp only [alSet]
      rw [if_neg h]
      simp only [List.map_cons, List.nodup_cons]
      refine ⟨fun hmem => ?_, ih hnd.2⟩
      rcases alSet_keys_sub hmem with h' | h'
      · exact h h'
      · exact hnd.1 h'

theorem alGetD_cases {α β : Type} [DecidableEq α] (m : List (α × β)) (k : α) (d : β) :
    (k, alGetD m k d) ∈ m ∨ alGetD m k d = d := by
  induction m with
  | nil => exact Or.inr rfl
  | cons q rest ih =>
    simp only [alGetD]
    by_cases h : q.1 = k
    · rw [if_pos h]
      left
      have : q = (k, q.2) := by rw [← h]
      rw [← this]
      exact List.mem_cons_self q rest
    · rw [if_neg h]
      rcases ih with h' | h'
      · exact Or.inl (List.mem_cons_of_mem q h')
      · exact Or.inr h'

/-! ### Lemmas about the in-memory index construction -/

theorem appendIfUnique_mem {s : List Nat} {i x : Nat}
    (hx : x ∈ appendIfUnique s i) : x ∈ s ∨ x = i := by
  unfold appendIfUnique at hx
  by_cases h : i ∈ s
  · rw [if_pos h] at hx; exact Or.inl hx
  · rw [if_neg h] at hx
    rcases List.mem_append.mp hx with h' | h'
    · exact Or.inl h'
    · exact Or.inr (List.mem_singleton.mp h')

theorem appendIfUnique_sorted {s : List Nat} {i : Nat} (hs : s.Sorted (· < ·))
    (hb : ∀ x ∈ s, x ≤ i) : (appendIfUnique s i).Sorted (· < ·) := by
  unfold appendIfUnique
  by_cases h : i ∈ s
  · rw [if_pos h]; exact hs
  · rw [if_neg h]
    refine List.pairwise_append.mpr ⟨hs, List.pairwise_singleton _ _, ?_⟩
    intro x hx y hy
    rw [List.mem_singleton.mp hy]
    have h1 := hb x hx
    have h2 : x ≠ i := fun he => h (he ▸ hx)
    omega

theorem IndexMapOK_mono {c i i' bnd : Nat} {m : List (String × List Nat)}
    (h : IndexMapOK c i bnd m) (hle : i ≤ i') : IndexMapOK c i' bnd m := by
  refine ⟨h.1, fun p hp => ⟨(h.2 p hp).1, fun x hx => ?_⟩⟩
  have := (h.2 p hp).2 x hx
  omega

theorem DataMapOK_mono {c i i' bnd : Nat} {dm : List (Nat × List String)}
    (h : DataMapOK c i bnd dm) (hle : i ≤ i') : DataMapOK c i' bnd dm := by
  intro p hp
  have := h p hp
  omega

theorem mapTerms_ok {c i bnd : Nat} (hc : c ≤ i) (hi : i < bnd) (h404 : i ≠ 404) :
    ∀ (d : List String) (m : List (String × List Nat)),
      IndexMapOK c (i + 1) bnd m → IndexMapOK c (i + 1) bnd (mapTerms m i d) := by
  intro d
  induction d with
  | nil => intro m h; exact h
  | cons t ts ih =>
    intro m h
    simp only [mapTerms]
    apply ih
    obtain ⟨hnd, hprops⟩ := h
    have hl : (alGetD m t []).Sorted (· < ·) ∧
        ∀ x ∈ alGetD m t [], c ≤ x ∧ x < i + 1 ∧ x < bnd ∧ x ≠ 404 := by
      rcases alGetD_cases m t [] with hmem | hnil
      · exact hprops _ hmem
      · rw [hnil]
        exact ⟨List.sorted_nil, by intro x hx; simp at hx⟩
    refine ⟨keysNodup_alSet hnd _ _, fun p hp => ?_⟩
    rcases alSet_mem hp with heq | hpm
    · subst heq
      constructor
      · exact appendIfUnique_sorted hl.1 (fun x hx => by have := hl.2 x hx; omega)
      · intro x hx
        rcases appendIfUnique_mem hx with hxl | hxi
        · exact hl.2 x hxl
        · subst hxi; exact ⟨hc, by omega, hi, h404⟩
    · exact hprops p hpm

/-! ### The download loop invariant -/

theorem getInfoLoop_ok {w : World} (hWF : WF w) :
    ∀ (fuel : Nat) {i : Nat} {st st' : MemSt} {fi : Nat} {c : Nat},
      getInfoLoop w fuel i st = LoopRes.brk st' fi →
      1 ≤ i → c ≤ i →
      IndexMapOK c i w.bound st.IndexMap →
      DataMapOK c i w.bound st.DataMap →
      IndexMapOK c fi w.bound st'.IndexMap ∧
      DataMapOK c fi w.bound st'.DataMap ∧
      i ≤ fi ∧ (fi ≤ i ∨ fi = 405 ∨ fi ≤ w.bound) ∧
      w.fetch fi = Fetch.notFound ∧
      (∀ j, i ≤ j → j < fi → j ≠ 404 → ∃ d, w.fetch j = Fetch.found d) ∧
      (∀ j, ((∃ d0, (j, d0) ∈ st.DataMap) ∨ (i ≤ j ∧ j < fi ∧ j ≠ 404)) →
        ∃ d, (j, d) ∈ st'.DataMap) := by
  intro fuel
  induction fuel with
  | zero =>
    intro i st st' fi c h
    simp [getInfoLoop] at h
  | succ fuel ih =>
    intro i st st' fi c h h1 hc hI hD
    rw [getInfoLoop] at h
    have hi0 : ¬ i = 0 := by omega
    rw [if_neg hi0] at h
    by_cases h404 : i = 404
    · subst h404
      rw [if_pos rfl] at h
      obtain ⟨hI', hD', hle, hbd, hnf, hfound, hdm⟩ :=
        ih h (by omega) (by omega) (IndexMapOK_mono hI (by omega))
          (DataMapOK_mono hD (by omega))
      refine ⟨hI', hD', by omega, ?_, hnf, ?_, ?_⟩
      · rcases hbd with h' | h' | h'
        · right; left; omega
        · right; left; exact h'
        · right; right; exact h'
      · intro j hj1 hj2 hj3
        exact hfound j (by omega) hj2 hj3
      · intro j hj
        apply hdm j
        rcases hj with h' | h'
        · exact Or.inl h'
        · exact Or.inr ⟨by omega, h'.2.1, h'.2.2⟩
    · rw [if_neg h404] at h
      cases hf : w.fetch i with
      | errConn => rw [hf] at h; cases h
      | badStatus => rw [hf] at h; cases h
      | badJson => rw [hf] at h; cases h
      | notFound =>
        rw [hf] at h
        injection h with hst hfi
        subst hst
        subst hfi
        refine ⟨hI, hD, le_refl i, Or.inl (le_refl i), hf, ?_, ?_⟩
        · intro j hj1 hj2
          omega
        · intro j hj
          rcases hj with ⟨d0, hd0⟩ | h'
          · exact ⟨d0, hd0⟩
          · omega
      | found d =>
        rw [hf] at h
        have hib : i < w.bound := by
          by_contra hh
          push_neg at hh
          rw [hWF i hh] at hf
          exact Fetch.noConfusion hf
        have hIm : IndexMapOK c (i + 1) w.bound (processDoc st i d).IndexMap :=
          mapTerms_ok hc hib h404 d st.IndexMap (IndexMapOK_mono hI (by omega))
        have hDm : DataMapOK c (i + 1) w.bound (processDoc st i d).DataMap := by
          intro p hp
          rcases alSet_mem hp with heq | hpm
          · subst heq
            exact ⟨hc, by omega, hib, h404⟩
          · have := hD p hpm
            omega
        obtain ⟨hI', hD', hle, hbd, hnf, hfound, hdm⟩ :=
          ih h (by omega) (by omega) hIm hDm
        refine ⟨hI', hD', by omega, ?_, hnf, ?_, ?_⟩
        · rcases hbd with h' | h' | h'
          · right; right; omega
          · right; left; exact h'
          · right; right; exact h'
        · intro j hj1 hj2 hj3
          by_cases hji : j = i
          · exact ⟨d, hji ▸ hf⟩
          · exact hfound j (by omega) hj2 hj3
        · intro j hj
          apply hdm j
          by_cases hji : j = i
          · subst hji
            exact Or.inl ⟨d, alSet_self st.DataMap j d⟩
          · rcases hj with ⟨d0, hd0⟩ | h'
            · exact Or.inl ⟨d0, alSet_mem_of_mem hd0 hji d⟩
            · exact Or.inr ⟨by omega, h'.2.1, h'.2.2⟩

/-! ### Characterizations of the store transactions -/

theorem storeIndexMap_cons (kv : String × List Nat) (rest : List (String × List Nat))
    (main : String → List Nat) :
    storeIndexMap (kv :: rest) main =
      storeIndexMap rest
        (fun t => if t = kv.1 then main kv.1 ++ Istobs kv.2 else main t) := rfl

theorem storeIndexMap_not_mem {m : List (String × List Nat)} {t : String}
    (h : t ∉ m.map Prod.fst) : ∀ main, storeIndexMap m main t = main t := by
  induction m with
  | nil => intro main; rfl
  | cons kv rest ih =>
    intro main
    simp only [List.map_cons, List.mem_cons] at h
    push_neg at h
    rw [storeIndexMap_cons, ih h.2]
    simp only [if_neg h.1]

theorem storeIndexMap_mem {m : List (String × List Nat)} (hnd : keysNodup m)
    {t : String} {v : List Nat} (hmem : (t, v) ∈ m) :
    ∀ main, storeIndexMap m main t = main t ++ Istobs v := by
  induction m with
  | nil => simp at hmem
  | cons kv rest ih =>
    intro main
    obtain ⟨kk, kvv⟩ := kv
    unfold keysNodup at hnd
    simp only [List.map_cons, List.nodup_cons] at hnd
    rw [storeIndexMap_cons]
    rcases List.mem_cons.mp hmem with heq | hmem'
    · have ht : t = kk := congrArg Prod.fst heq
      have hv : v = kvv := congrArg Prod.snd heq
      subst ht
      subst hv
      have hnot : t ∉ rest.map Prod.fst := hnd.1
      rw [storeIndexMap_not_mem hnot]
      simp
    · have htk : t ≠ kk := by
        intro he
        apply hnd.1
        subst he
        exact List.mem_map.mpr ⟨(t, v), hmem', rfl⟩
      rw [ih hnd.2 hmem']
      simp only [if_neg htk]

theorem storeMapData_cons (kv : Nat × List String) (rest : List (Nat × List String))
    (data : List Nat → Option (List String)) :
    storeMapData (kv :: rest) data =
      storeMapData rest (fun b => if b = Itob kv.1 then some kv.2 else data b) := rfl

theorem storeMapData_no_key {dm : List (Nat × List String)} {b : List Nat}
    (h : ∀ p ∈ dm, Itob p.1 ≠ b) :
    ∀ data, storeMapData dm data b = data b := by
  induction dm with
  | nil => intro data; rfl
  | cons kv rest ih =>
    intro data
    rw [storeMapData_cons, ih (fun p hp => h p (List.mem_cons_of_mem kv hp))]
    have hne := h kv (List.mem_cons_self kv rest)
    simp only [if_neg (fun he => hne (Eq.symm he))]

theorem storeMapData_isSome {dm : List (Nat × List String)} {b : List Nat} :
    ∀ data, ((∃ d, data b = some d) ∨ ∃ p ∈ dm, Itob p.1 = b) →
      ∃ d, storeMapData dm data b = some d := by
  induction dm with
  | nil =>
    intro data h
    rcases h with ⟨d, hd⟩ | ⟨p, hp, _⟩
    · exact ⟨d, hd⟩
    · simp at hp
  | cons kv rest ih =>
    intro data h
    rw [storeMapData_cons]
    apply ih
    by_cases hb : b = Itob kv.1
    · exact Or.inl ⟨kv.2, by simp [hb]⟩
    · rcases h with ⟨d, hd⟩ | ⟨p, hp, hpb⟩
      · refine Or.inl ⟨d, ?_⟩
        simp only [if_neg hb]
        exact hd
      · rcases List.mem_cons.mp hp with heq | hp'
        · exact absurd (heq ▸ hpb) (fun he => hb (Eq.symm he))
        · exact Or.inr ⟨p, hp', hpb⟩

/-! ### Runs preserve the store invariants -/

theorem IndexMapOK_nil (c i bnd : Nat) : IndexMapOK c i bnd [] :=
  ⟨List.nodup_nil, by intro p hp; cases hp⟩

theorem DataMapOK_nil (c i bnd : Nat) : DataMapOK c i bnd [] := by
  intro p hp
  cases hp

theorem updateIndex_eq_run {w : World} {s : Store} {c : Nat}
    (hGI : GetIndex s = some c) (f1 f2 f3 : Bool) :
    updateIndex w f1 f2 f3 s =
      runGetInfo f1 f2 f3 s (getInfoLoop w (fuelFor w) c ⟨[], []⟩) := by
  unfold updateIndex
  rw [hGI]

theorem updateIndex_eq_none {w : World} {s : Store} (hGI : GetIndex s = none)
    (f1 f2 f3 : Bool) :
    updateIndex w f1 f2 f3 s = (s, RunOutcome.panicked) := by
  unfold updateIndex
  rw [hGI]

theorem updateIndex_eq_of_brk {w : World} {s : Store} {c : Nat}
    (hGI : GetIndex s = some c) {st : MemSt} {fi : Nat}
    (hL : getInfoLoop w (fuelFor w) c ⟨[], []⟩ = LoopRes.brk st fi)
    (f1 f2 f3 : Bool) :
    updateIndex w f1 f2 f3 s = flush f1 f2 f3 st fi s := by
  rw [updateIndex_eq_run hGI f1 f2 f3, hL]
  rfl

theorem GetIndex_absent {s : Store} (h : s.log = LogDb.absent) :
    GetIndex s = some 1 := by
  unfold GetIndex
  rw [h]

theorem GetIndex_emptyFile {s : Store} (h : s.log = LogDb.emptyFile) :
    GetIndex s = none := by
  unfold GetIndex
  rw [h]

theorem GetIndex_value {s : Store} {bs : List Nat} (h : s.log = LogDb.value bs) :
    GetIndex s = Btoi bs := by
  unfold GetIndex
  rw [h]

theorem flush_fail2_eq (f3 : Bool) (st : MemSt) (fi : Nat) (s : Store) :
    flush false true f3 st fi s =
      (⟨storeIndexMap st.IndexMap s.main, s.data, s.log⟩, RunOutcome.failed) := rfl

theorem flush_fail3_eq (st : MemSt) (fi : Nat) (s : Store) :
    flush false false true st fi s =
      (⟨storeIndexMap st.IndexMap s.main, storeMapData st.DataMap s.data,
        match s.log with | LogDb.absent => LogDb.emptyFile | l => l⟩,
        RunOutcome.failed) := rfl

theorem flush_ok_eq (st : MemSt) (fi : Nat) (s : Store) :
    flush false false false st fi s =
      (⟨storeIndexMap st.IndexMap s.main, storeMapData st.DataMap s.data,
        logIndexVar fi⟩, RunOutcome.success) := rfl

theorem Inv5_step {w : World} (hWF : WF w) (hb : w.bound ≤ 65535) {s : Store}
    (h : Inv5 s) : Inv5 (updateIndex w false false false s).1 := by
  obtain ⟨c, hGI, hc1, hc65, hpost⟩ := h
  cases hL : getInfoLoop w (fuelFor w) c ⟨[], []⟩ with
  | errored st =>
    rw [updateIndex_eq_run hGI false false false, hL]
    exact ⟨c, hGI, hc1, hc65, hpost⟩
  | panicked =>
    rw [updateIndex_eq_run hGI false false false, hL]
    exact ⟨c, hGI, hc1, hc65, hpost⟩
  | fuelOut =>
    rw [updateIndex_eq_run hGI false false false, hL]
    exact ⟨c, hGI, hc1, hc65, hpost⟩
  | brk st fi =>
    rw [updateIndex_eq_of_brk hGI hL false false false, flush_ok_eq]
    obtain ⟨hI', hD', hle, hbd, hnf, hfound, hdm⟩ :=
      getInfoLoop_ok hWF (fuelFor w) hL hc1 (le_refl c)
        (IndexMapOK_nil c c w.bound) (DataMapOK_nil c c w.bound)
    have hfi65 : fi ≤ 65535 := by rcases hbd with h' | h' | h' <;> omega
    have hfi1 : 1 ≤ fi := by omega
    refine ⟨fi, ?_, hfi1, hfi65, ?_⟩
    · show Btoi (Itob fi) = some fi
      rw [Btoi_Itob, Nat.mod_eq_of_lt (by omega)]
    · intro t
      by_cases ht : t ∈ st.IndexMap.map Prod.fst
      · obtain ⟨p, hp, hfst⟩ := List.mem_map.mp ht
        obtain ⟨pk, pv⟩ := p
        subst hfst
        obtain ⟨l, hdec, hsort, hel⟩ := hpost pk
        have hpv := hI'.2 (pk, pv) hp
        have hpv65 : ∀ x ∈ pv, x < 65536 := fun x hx => by
          have := hpv.2 x hx
          omega
        refine ⟨l ++ pv, ?_, ?_, ?_⟩
        · show Bstois (storeIndexMap st.IndexMap s.main pk) = some (l ++ pv)
          rw [storeIndexMap_mem hI'.1 hp, Bstois_append hdec (Istobs pv),
            Bstois_Istobs pv hpv65]
          rfl
        · refine List.pairwise_append.mpr ⟨hsort, hpv.1, fun x hx y hy => ?_⟩
          have h1 := hel x hx
          have h2 := (hpv.2 y hy).1
          omega
        · intro x hx
          rcases List.mem_append.mp hx with h' | h'
          · have := hel x h'
            omega
          · have := hpv.2 x h'
            omega
      · obtain ⟨l, hdec, hsort, hel⟩ := hpost t
        refine ⟨l, ?_, hsort, fun x hx => by have := hel x hx; omega⟩
        show Bstois (storeIndexMap st.IndexMap s.main t) = some l
        rw [storeIndexMap_not_mem ht]
        exact hdec

theorem Inv8_step {w : World} (hWF : WF w) (hb : w.bound ≤ 65535) (f1 f2 f3 : Bool)
    {s : Store} (h : Inv8 s) : Inv8 (updateIndex w f1 f2 f3 s).1 := by
  obtain ⟨hlog, hmain, hdata⟩ := h
  cases hGI : GetIndex s with
  | none =>
    rw [updateIndex_eq_none hGI f1 f2 f3]
    exact ⟨hlog, hmain, hdata⟩
  | some c =>
    have hc : 1 ≤ c ∧ c ≤ 65535 := by
      rcases hlog with h' | h' | ⟨n, hn1, hn65, h'⟩
      · rw [GetIndex_absent h'] at hGI
        injection hGI with he
        omega
      · rw [GetIndex_emptyFile h'] at hGI
        cases hGI
      · rw [GetIndex_value h', Btoi_Itob] at hGI
        injection hGI with he
        have : n % 65536 = n := Nat.mod_eq_of_lt (by omega)
        omega
    cases hL : getInfoLoop w (fuelFor w) c ⟨[], []⟩ with
    | errored st =>
      rw [updateIndex_eq_run hGI f1 f2 f3, hL]
      exact ⟨hlog, hmain, hdata⟩
    | panicked =>
      rw [updateIndex_eq_run hGI f1 f2 f3, hL]
      exact ⟨hlog, hmain, hdata⟩
    | fuelOut =>
      rw [updateIndex_eq_run hGI f1 f2 f3, hL]
      exact ⟨hlog, hmain, hdata⟩
    | brk st fi =>
      rw [updateIndex_eq_of_brk hGI hL f1 f2 f3]
      obtain ⟨hI', hD', hle, hbd, _, _, _⟩ :=
        getInfoLoop_ok hWF (fuelFor w) hL (by omega) (le_refl c)
          (IndexMapOK_nil c c w.bound) (DataMapOK_nil c c w.bound)
      have hfi65 : fi ≤ 65535 := by rcases hbd with h' | h' | h' <;> omega
      cases f1 with
      | true => exact ⟨hlog, hmain, hdata⟩
      | false =>
        have hmain' : ∀ t, ∃ l, Bstois (storeIndexMap st.IndexMap s.main t) = some l ∧
            ∀ x ∈ l, x ≠ 404 ∧ x < 65536 := by
          intro t
          by_cases ht : t ∈ st.IndexMap.map Prod.fst
          · obtain ⟨p, hp, hfst⟩ := List.mem_map.mp ht
            obtain ⟨pk, pv⟩ := p
            subst hfst
            obtain ⟨l, hdec, hel⟩ := hmain pk
            have hpv := hI'.2 (pk, pv) hp
            have hpv65 : ∀ x ∈ pv, x < 65536 := fun x hx => by
              have := hpv.2 x hx
              omega
            refine ⟨l ++ pv, ?_, ?_⟩
            · rw [storeIndexMap_mem hI'.1 hp, Bstois_append hdec (Istobs pv),
                Bstois_Istobs pv hpv65]
              rfl
            · intro x hx
              rcases List.mem_append.mp hx with h' | h'
              · exact hel x h'
              · have := hpv.2 x h'
                exact ⟨this.2.2.2, by omega⟩
          · obtain ⟨l, hdec, hel⟩ := hmain t
            rw [storeIndexMap_not_mem ht]
            exact ⟨l, hdec, hel⟩
        cases f2 with
        | true => exact ⟨hlog, hmain', hdata⟩
        | false =>
          have hdata' : storeMapData st.DataMap s.data (Itob 404) = none := by
            rw [storeMapData_no_key ?_ s.data]
            · exact hdata
            · intro p hp he
              have hprops := hD' p hp
              exact hprops.2.2.2 (Itob_inj (by omega) (by norm_num) he)
          cases f3 with
          | true =>
            rw [flush_fail3_eq st fi s]
            refine ⟨?_, hmain', hdata'⟩
            rcases hlog with h' | h' | ⟨n, hn1, hn65, h'⟩
            · rw [h']
              exact Or.inr (Or.inl rfl)
            · rw [h']
              exact Or.inr (Or.inl rfl)
            · rw [h']
              exact Or.inr (Or.inr ⟨n, hn1, hn65, rfl⟩)
          | false =>
            exact ⟨Or.inr (Or.inr ⟨fi, by omega, hfi65, rfl⟩), hmain', hdata'⟩

theorem Inv5_runSeq {w : World} (hWF : WF w) (hb : w.bound ≤ 65535) :
    ∀ (fs : List (Bool × Bool × Bool)), (∀ f ∈ fs, f = (false, false, false)) →
      Inv5 (runSeq w fs) := by
  have hinit : Inv5 Store.init := by
    refine ⟨1, rfl, le_refl 1, by omega, fun t => ⟨[], rfl, List.sorted_nil, ?_⟩⟩
    intro x hx
    cases hx
  have hstep : ∀ (fs : List (Bool × Bool × Bool)) (s : Store),
      (∀ f ∈ fs, f = (false, false, false)) → Inv5 s →
      Inv5 (fs.foldl (fun s f => (updateIndex w f.1 f.2.1 f.2.2 s).1) s) := by
    intro fs
    induction fs with
    | nil => intro s _ h; exact h
    | cons f rest ih =>
      intro s hok h
      have hf := hok f (List.mem_cons_self f rest)
      subst hf
      simp only [List.foldl_cons]
      exact ih _ (fun g hg => hok g (List.mem_cons_of_mem _ hg)) (Inv5_step hWF hb h)
  intro fs hok
  exact hstep fs Store.init hok hinit

theorem Inv8_runSeq {w : World} (hWF : WF w) (hb : w.bound ≤ 65535) :
    ∀ (fs : List (Bool × Bool × Bool)), Inv8 (runSeq w fs) := by
  have hinit : Inv8 Store.init := by
    refine ⟨Or.inl rfl, fun t => ⟨[], rfl, ?_⟩, rfl⟩
    intro x hx
    cases hx
  have hstep : ∀ (fs : List (Bool × Bool × Bool)) (s : Store), Inv8 s →
      Inv8 (fs.foldl (fun s f => (updateIndex w f.1 f.2.1 f.2.2 s).1) s) := by
    intro fs
    induction fs with
    | nil => intro s h; exact h
    | cons f rest ih =>
      intro s h
      simp only [List.foldl_cons]
      exact ih _ (Inv8_step hWF hb f.1 f.2.1 f.2.2 h)
  intro fs
  exact hstep fs Store.init hinit

/-! ### Claim C5: the postings ordering invariant across runs -/

/-- C5 counterexample: the reachable states include re-runs after partial
failures, and there the invariant breaks — a first run whose
`storeMapData` transaction fails commits the postings but not the
cursor, so the second run re-processes the same documents and
`storeIndexMap` appends the same IDs again: the stored list for term
`a` decodes to `[1, 2, 1, 2]`, neither strictly ascending nor
duplicate free. -/
theorem C5_counterexample :
    Bstois ((runSeq wDup [(false, true, false), (false, false, false)]).main "a") =
      some [1, 2, 1, 2] ∧
    ¬ ([1, 2, 1, 2] : List Nat).Sorted (· < ·) ∧
    ¬ ([1, 2, 1, 2] : List Nat).Nodup := by
  refine ⟨rfl, by decide, by decide⟩

/-- C5 amended: restricted to sequences of fully successful runs (no flush
transaction fails) in a well formed world whose IDs fit the 2 byte
encoding, the persisted postings list of every term decodes to a strictly
ascending, duplicate free sequence. -/
theorem C5_postings_amended (w : World) (fs : List (Bool × Bool × Bool))
    (hWF : WF w) (hb : w.bound ≤ 65535)
    (hok : ∀ f ∈ fs, f = (false, false, false)) (t : String) :
    ∃ l, Bstois ((runSeq w fs).main t) = some l ∧ l.Sorted (· < ·) ∧ l.Nodup := by
  obtain ⟨c, _, _, _, hpost⟩ := Inv5_runSeq hWF hb fs hok
  obtain ⟨l, hdec, hsort, _⟩ := hpost t
  exact ⟨l, hdec, hsort, hsort.nodup⟩

theorem C5_postings_amended_witness :
    WF wDup ∧ wDup.bound ≤ 65535 ∧
    ∃ l, Bstois ((runSeq wDup [(false, false, false)]).main "a") = some l ∧
      l.Sorted (· < ·) ∧ l.Nodup := by
  have hwf : WF wDup := by
    intro i hi
    have hi3 : (3 : Nat) ≤ i := hi
    show (if i ≤ 2 then Fetch.found ["a"] else Fetch.notFound) = Fetch.notFound
    rw [if_neg (by omega : ¬ i ≤ 2)]
  exact ⟨hwf, by decide,
    C5_postings_amended wDup [(false, false, false)] hwf (by decide) (by decide) "a"⟩

/-! ### Claim C8: the reserved ID never reaches the store -/

/-- C8: in every state reachable by any sequence of runs (with any flush
failures) over a well formed world whose IDs fit the 2 byte encoding,
the reserved ID 404 never appears in any decoded postings list and the
document bucket has no entry under the key of ID 404; moreover the
download loop at index 404 skips to 405 without fetching, so the
reserved ID is never treated as the frontier. -/
theorem C8_reserved_id (w : World) (fs : List (Bool × Bool × Bool))
    (hWF : WF w) (hb : w.bound ≤ 65535) :
    (∀ t l, Bstois ((runSeq w fs).main t) = some l → 404 ∉ l) ∧
    (runSeq w fs).data (Itob 404) = none ∧
    (∀ fuel st, getInfoLoop w (fuel + 1) 404 st = getInfoLoop w fuel 405 st) := by
  obtain ⟨_, hmain, hdata⟩ := Inv8_runSeq hWF hb fs
  refine ⟨?_, hdata, ?_⟩
  · intro t l hl hmem
    obtain ⟨l', hl', hel⟩ := hmain t
    rw [hl] at hl'
    injection hl' with he
    exact (hel 404 (he ▸ hmem)).1 rfl
  · intro fuel st
    rfl

theorem C8_reserved_id_witness :
    (∀ t l, Bstois ((runSeq w404 [(false, true, false), (false, false, false)]).main t) =
        some l → 404 ∉ l) ∧
    (runSeq w404 [(false, true, false), (false, false, false)]).data (Itob 404) = none ∧
    (∀ fuel st, getInfoLoop w404 (fuel + 1) 404 st = getInfoLoop w404 fuel 405 st) := by
  have hwf : WF w404 := by
    intro i hi
    have hi4 : (404 : Nat) ≤ i := hi
    show (if i ≤ 403 then Fetch.found ["a"] else Fetch.notFound) = Fetch.notFound
    rw [if_neg (by omega : ¬ i ≤ 403)]
  exact C8_reserved_id w404 [(false, true, false), (false, false, false)] hwf (by decide)

/-! ### Claim C6, amended -/

/-- C6 amended: a successful run starting from persisted cursor `c`
processes every ID from `c` up to the frontier `fi` except the reserved
ID 404 (each such ID was fetched successfully and has a stored document
record), and persists the cursor `fi`, the ID at which the source first
reported not found; `fi` is one past the last processed ID except when
the reserved ID immediately precedes the frontier, in which case the ID
below the new cursor is the skipped 404 rather than a processed
document. -/
theorem C6_resume_amended (w : World) (s : Store) (c : Nat) (hWF : WF w)
    (hGI : GetIndex s = some c) (h1 : 1 ≤ c)
    (hsucc : (updateIndex w false false false s).2 = RunOutcome.success) :
    ∃ fi, (updateIndex w false false false s).1.log = LogDb.value (Itob fi) ∧
      c ≤ fi ∧ w.fetch fi = Fetch.notFound ∧
      (∀ j, c ≤ j → j < fi → j ≠ 404 →
        (∃ d, w.fetch j = Fetch.found d) ∧
        ∃ d, (updateIndex w false false false s).1.data (Itob j) = some d) ∧
      (c < fi → fi - 1 = 404 ∨ ∃ d, w.fetch (fi - 1) = Fetch.found d) := by
  cases hL : getInfoLoop w (fuelFor w) c ⟨[], []⟩ with
  | errored st =>
    rw [updateIndex_eq_run hGI false false false, hL] at hsucc
    exact RunOutcome.noConfusion hsucc
  | panicked =>
    rw [updateIndex_eq_run hGI false false false, hL] at hsucc
    exact RunOutcome.noConfusion hsucc
  | fuelOut =>
    rw [updateIndex_eq_run hGI false false false, hL] at hsucc
    exact RunOutcome.noConfusion hsucc
  | brk st fi =>
    rw [updateIndex_eq_of_brk hGI hL false false false, flush_ok_eq]
    obtain ⟨hI', hD', hle, hbd, hnf, hfound, hdm⟩ :=
      getInfoLoop_ok hWF (fuelFor w) hL h1 (le_refl c)
        (IndexMapOK_nil c c w.bound) (DataMapOK_nil c c w.bound)
    refine ⟨fi, rfl, hle, hnf, ?_, ?_⟩
    · intro j hj1 hj2 hj3
      refine ⟨hfound j hj1 hj2 hj3, ?_⟩
      obtain ⟨d, hd⟩ := hdm j (Or.inr ⟨hj1, hj2, hj3⟩)
      exact storeMapData_isSome s.data (Or.inr ⟨(j, d), hd, rfl⟩)
    · intro hlt
      by_cases h404 : fi - 1 = 404
      · exact Or.inl h404
      · exact Or.inr (hfound (fi - 1) (by omega) (by omega) h404)

theorem C6_resume_amended_witness :
    GetIndex Store.init = some 1 ∧
    (updateIndex w1 false false false Store.init).2 = RunOutcome.success ∧
    ∃ fi, (updateIndex w1 false false false Store.init).1.log = LogDb.value (Itob fi) ∧
      1 ≤ fi ∧ w1.fetch fi = Fetch.notFound ∧
      (∀ j, 1 ≤ j → j < fi → j ≠ 404 →
        (∃ d, w1.fetch j = Fetch.found d) ∧
        ∃ d, (updateIndex w1 false false false Store.init).1.data (Itob j) = some d) ∧
      (1 < fi → fi - 1 = 404 ∨ ∃ d, w1.fetch (fi - 1) = Fetch.found d) := by
  have hwf : WF w1 := by
    intro i hi
    have hi2 : (2 : Nat) ≤ i := hi
    show (if i = 1 then Fetch.found ["a"] else Fetch.notFound) = Fetch.notFound
    rw [if_neg (by omega : ¬ i = 1)]
  exact ⟨rfl, rfl,
    C6_resume_amended w1 Store.init 1 hwf rfl (by omega) (by rfl)⟩

end Xkcd
